import Mathlib

/-!
Verification development for the DAWG AI dashboard (`dashboard.py`).

The embedding below mirrors, over `List Char` / `String`, the pieces of the
source that the specification talks about:

* `scanRows` — the table scan performed by `serve_status` via
  `re.findall(pattern, content)` with
  `pattern = r'\| (\d+) \| (.+?) \| ([...]) (.+?) \| (\d+)%'`.
  The character class of the third group is transcribed codepoint-for-
  codepoint from the source file (see `glyphChars`): the file as shipped
  contains a Mac-Roman mojibake of the intended emoji, so the class is a
  set of fifteen distinct codepoints such as U+F8FF and U+00FC.
  The scan is modelled as Python's `re.findall`: left-to-right search for
  the leftmost match, lazy (shortest-first) expansion of the two `(.+?)`
  groups, greedy `\d+` (which never usefully backtracks here because each
  digit run is followed by a non-digit literal), `.` not matching `'\n'`,
  and continuation after each match at the match's end.
* `get_module_commits` / `get_last_activity` — the per-module repository
  probes, with the external `subprocess.run` calls abstracted as a
  `ProbeEnv` of outcomes (a returned `CompletedProcess` or a raised
  exception) keyed by the probed directory.
* `buildModules` / `serve_status` — the id-keyed `modules` dict built by
  insertion (later rows overwrite earlier ones' values in place) and the
  HTTP handler's success/error split.
* `serve_git_activity` — the `git log` line parser (`split('\n')`,
  `line.strip()`, `line.split(maxsplit=2)`, `parts[1][:7]`).

Python's `\d`, `str.strip()` and `str.split()` also accept non-ASCII
decimal digits and whitespace; the embedding uses the ASCII sets, which is
faithful on every input considered here and does not affect any verdict.
-/

/-- The character class of group 3 of the source pattern, transcribed
codepoint-for-codepoint from the bytes of `dashboard.py` (the file holds a
Mac-Roman mojibake of six emoji; duplicates are harmless in a class). -/
def glyphChars : List Char :=
  [Char.ofNat 0xF8FF, Char.ofNat 0xFC, Char.ofNat 0xEE, Char.ofNat 0xA5,
   Char.ofNat 0xF8FF, Char.ofNat 0xFC, Char.ofNat 0xFC, Char.ofNat 0xB0,
   Char.ofNat 0xF8FF, Char.ofNat 0xFC, Char.ofNat 0xFC, Char.ofNat 0xA2,
   Char.ofNat 0xF8FF, Char.ofNat 0xFC, Char.ofNat 0xEE, Char.ofNat 0xB5,
   Char.ofNat 0x201A, Char.ofNat 0xF6, Char.ofNat 0x2020,
   Char.ofNat 0xD4, Char.ofNat 0x220F, Char.ofNat 0xE8,
   Char.ofNat 0x201A, Char.ofNat 0xF9, Char.ofNat 0xE5]

/-- Membership in the pattern's character class. -/
def isGlyph (c : Char) : Bool := glyphChars.contains c

/-- One captured row of the module table: the five groups of the pattern. -/
structure RowMatch where
  num : List Char
  name : List Char
  glyph : Char
  text : List Char
  pct : List Char
deriving Repr, DecidableEq

/-- Result of matching group 4 and group 5: `(.+?) \| (\d+)%`. -/
structure G4Res where
  text : List Char
  pct : List Char
  rest : List Char
deriving Repr, DecidableEq

/-- Result of matching groups 2–5: `(.+?) \| ([class]) (.+?) \| (\d+)%`. -/
structure G2Res where
  name : List Char
  glyph : Char
  text : List Char
  pct : List Char
  rest : List Char
deriving Repr, DecidableEq

/-- Consume one expected literal character. -/
def eatChar (c : Char) : List Char → Option (List Char)
  | x :: s => if x = c then some s else none
  | [] => none

/-- Consume `\d+` (greedy; always followed by a non-digit literal in the
pattern, so maximal munch is exact). -/
def eatDigits (s : List Char) : Option (List Char × List Char) :=
  let ds := s.takeWhile Char.isDigit
  if ds = [] then none else some (ds, s.dropWhile Char.isDigit)

/-- Consume one character of the `[...]` class. -/
def eatGlyph : List Char → Option (Char × List Char)
  | x :: s => if isGlyph x then some (x, s) else none
  | [] => none

/-- Match the tail ` \| (\d+)%` that closes the lazy group 4. -/
def contAfterG4 (s : List Char) : Option (List Char × List Char) :=
  (eatChar ' ' s).bind fun s1 =>
  (eatChar '|' s1).bind fun s2 =>
  (eatChar ' ' s2).bind fun s3 =>
  (eatDigits s3).bind fun p =>
  (eatChar '%' p.2).map fun s4 => (p.1, s4)

/-- Lazy group 4 `(.+?)`: consume one non-newline character, then try to
close with `contAfterG4`, extending one character at a time (shortest
match first, exactly Python's lazy backtracking order). -/
def g4loop (acc : List Char) : List Char → Option G4Res
  | [] => none
  | c :: rest =>
    if c = '\n' then none
    else
      match contAfterG4 rest with
      | some p => some { text := acc ++ [c], pct := p.1, rest := p.2 }
      | none => g4loop (acc ++ [c]) rest

/-- Match the tail ` \| ([class]) (.+?) \| (\d+)%` that closes the lazy
group 2. -/
def contAfterG2 (s : List Char) : Option (Char × G4Res) :=
  (eatChar ' ' s).bind fun s1 =>
  (eatChar '|' s1).bind fun s2 =>
  (eatChar ' ' s2).bind fun s3 =>
  (eatGlyph s3).bind fun g =>
  (eatChar ' ' g.2).bind fun s4 =>
  (g4loop [] s4).map fun r => (g.1, r)

/-- Lazy group 2 `(.+?)`, analogous to `g4loop`. -/
def g2loop (acc : List Char) : List Char → Option G2Res
  | [] => none
  | c :: rest =>
    if c = '\n' then none
    else
      match contAfterG2 rest with
      | some p =>
        some { name := acc ++ [c], glyph := p.1, text := p.2.text,
               pct := p.2.pct, rest := p.2.rest }
      | none => g2loop (acc ++ [c]) rest

/-- Attempt the whole pattern at the head of `s`; on success return the
five captured groups and the remainder after the match. -/
def matchRowAt (s : List Char) : Option (RowMatch × List Char) :=
  (eatChar '|' s).bind fun s1 =>
  (eatChar ' ' s1).bind fun s2 =>
  (eatDigits s2).bind fun num =>
  (eatChar ' ' num.2).bind fun s3 =>
  (eatChar '|' s3).bind fun s4 =>
  (eatChar ' ' s4).bind fun s5 =>
  (g2loop [] s5).map fun r =>
    ({ num := num.1, name := r.name, glyph := r.glyph,
       text := r.text, pct := r.pct }, r.rest)

/-- `re.findall` scan with explicit fuel: try the pattern at every
position left to right; after a match continue at its end. -/
def scanAux : Nat → List Char → List RowMatch
  | 0, _ => []
  | _ + 1, [] => []
  | f + 1, c :: rest =>
    match matchRowAt (c :: rest) with
    | some p => p.1 :: scanAux f p.2
    | none => scanAux f rest

/-- The table scan of `serve_status`:
`re.findall(pattern, content)` over a character list. -/
def scanRows (s : List Char) : List RowMatch := scanAux s.length s

/-- ASCII part of Python's default whitespace set (used by `str.strip()`
and `str.split()` with no separator). -/
def isPyWs (c : Char) : Bool :=
  c = ' ' || c = '\t' || c = '\n' || c = '\r' || c = '\x0b' || c = '\x0c'

/-- Python `str.strip()`: drop whitespace from both ends. -/
def pyStrip (s : List Char) : List Char :=
  ((s.dropWhile isPyWs).reverse.dropWhile isPyWs).reverse

/-- Decimal value of a digit run (what `int` computes on the `\d+`
captures, which carry no sign). -/
def digitsToNat (l : List Char) : Nat :=
  l.foldl (fun a c => 10 * a + (c.toNat - 48)) 0

/-- Python `int(str)` on an already-stripped string: optional sign and a
nonempty digit run, otherwise a `ValueError` (modelled as `none`). -/
def pyIntOfList : List Char → Option Int
  | '-' :: ds => if ds ≠ [] ∧ ds.all Char.isDigit then some (-(digitsToNat ds : Int)) else none
  | '+' :: ds => if ds ≠ [] ∧ ds.all Char.isDigit then some (digitsToNat ds : Int) else none
  | ds => if ds ≠ [] ∧ ds.all Char.isDigit then some (digitsToNat ds : Int) else none

/-- Outcome of a `subprocess.run` call: either a completed process with
its exit status and captured standard output, or a raised exception
(e.g. the executable could not be spawned). -/
inductive RunResult where
  | ok (returncode : Int) (stdout : String)
  | raised (msg : String)
deriving Repr, DecidableEq

/-- The external state the per-module probes of `dashboard.py` consult:
whether a directory exists (`os.path.exists`), and the outcome of the two
git queries run with that directory as working directory. -/
structure ProbeEnv where
  dirExists : String → Bool
  revList : String → RunResult
  lastLog : String → RunResult

/-- `f'../dawg-module-{module_num}'` — the sibling-directory naming
convention of both probes. -/
def module_dir (module_num : String) : String :=
  "../dawg-module-" ++ module_num

/-- `get_module_commits`: 0 when the directory is missing, the query
exits non-zero, or anything raises (bare `except: pass`); otherwise
`int(result.stdout.strip())`, whose own `ValueError` is also caught. -/
def get_module_commits (env : ProbeEnv) (module_num : String) : Int :=
  if env.dirExists (module_dir module_num) then
    match env.revList (module_dir module_num) with
    | RunResult.ok rc out =>
      if rc = 0 then
        match pyIntOfList (pyStrip out.data) with
        | some n => n
        | none => 0
      else 0
    | RunResult.raised _ => 0
  else 0

/-- `get_last_activity`: `"Never"` when the directory is missing, the
query exits non-zero, or anything raises; otherwise the stripped stdout. -/
def get_last_activity (env : ProbeEnv) (module_num : String) : String :=
  if env.dirExists (module_dir module_num) then
    match env.lastLog (module_dir module_num) with
    | RunResult.ok rc out =>
      if rc = 0 then String.mk (pyStrip out.data) else "Never"
    | RunResult.raised _ => "Never"
  else "Never"

/-- One value of the `modules` dict of `serve_status`. -/
structure ModuleRecord where
  name : String
  status : Char
  status_text : String
  progress : Int
  commits : Int
  lastActive : String
deriving Repr, DecidableEq

/-- The record `serve_status` stores for one pattern match, keyed by the
first capture: `modules[module_num] = {...}`. -/
def recordOfMatch (env : ProbeEnv) (m : RowMatch) : String × ModuleRecord :=
  (String.mk m.num,
   { name := String.mk (pyStrip m.name)
     status := m.glyph
     status_text := String.mk (pyStrip m.text)
     progress := (digitsToNat m.pct : Int)
     commits := get_module_commits env (String.mk m.num)
     lastActive := get_last_activity env (String.mk m.num) })

/-- Python-dict insertion on an association list whose keys are unique:
updating an existing key keeps its position, a new key is appended. -/
def dictInsert {V : Type} : List (String × V) → String → V → List (String × V)
  | [], k, v => [(k, v)]
  | p :: d, k, v => if p.1 = k then (k, v) :: d else p :: dictInsert d k v

/-- Dict lookup. -/
def dictLookup {V : Type} : List (String × V) → String → Option V
  | [], _ => none
  | p :: d, k => if p.1 = k then some p.2 else dictLookup d k

/-- The `modules` dict built by the `for match in matches` loop of
`serve_status`. -/
def buildModules (env : ProbeEnv) (content : String) : List (String × ModuleRecord) :=
  (scanRows content.data).foldl
    (fun d m => dictInsert d (recordOfMatch env m).1 (recordOfMatch env m).2) []

/-- Outcome of `open('MODULE_STATUS.md').read()`: the content, or a
raised `OSError` (missing file, I/O error). -/
inductive ReadResult where
  | ok (content : String)
  | raised (msg : String)
deriving Repr, DecidableEq

/-- Response of the `/api/status` handler: a 200 JSON body with the
modules mapping and the `updated` stamp, or `send_error(500, str(e))`. -/
inductive StatusResponse where
  | ok (modules : List (String × ModuleRecord)) (updated : String)
  | err (code : Nat) (msg : String)
deriving Repr, DecidableEq

/-- `serve_status`: build the snapshot from the document, or convert the
read failure into an HTTP 500 via the surrounding `except`. -/
def serve_status (doc : ReadResult) (env : ProbeEnv) (now : String) : StatusResponse :=
  match doc with
  | ReadResult.ok content => StatusResponse.ok (buildModules env content) now
  | ReadResult.raised msg => StatusResponse.err 500 msg

/-- One element of the `commits` list of `/api/git`. -/
structure CommitEntry where
  hash : String
  message : String
  time : String
deriving Repr, DecidableEq

/-- Response of the `/api/git` handler. -/
inductive GitResponse where
  | ok (commits : List CommitEntry)
  | err (code : Nat) (msg : String)
deriving Repr, DecidableEq

/-- Python `s.split('\n')`: literal separator, so `""` yields `[""]`. -/
def splitOnNL : List Char → List (List Char)
  | [] => [[]]
  | c :: rest =>
    if c = '\n' then [] :: splitOnNL rest
    else
      match splitOnNL rest with
      | [] => [[c]]
      | l :: ls => (c :: l) :: ls

/-- Python `s.split(maxsplit=n)` (no separator): skip whitespace; while
splits remain take a maximal non-whitespace token; once they are used up
the remainder (leading whitespace stripped, trailing kept) is the last
element if nonempty. -/
def pySplitWsAux : Nat → List Char → List (List Char)
  | maxsp, s0 =>
    match s0.dropWhile isPyWs with
    | [] => []
    | c :: rest =>
      match maxsp with
      | 0 => [c :: rest]
      | m + 1 =>
        ((c :: rest).takeWhile fun x => !isPyWs x) ::
          pySplitWsAux m ((c :: rest).dropWhile fun x => !isPyWs x)

/-- `line.split(maxsplit=2)`. -/
def pySplitWs2 (s : List Char) : List (List Char) := pySplitWsAux 2 s

/-- The body of the `for line in result.stdout.split('\n')` loop of
`serve_git_activity`: skip blank lines, split into at most three
segments, drop lines with fewer than two, otherwise build the entry
(`parts[1][:7]`; the message is the third segment when present, else the
whole line). -/
def parseGitLine (line : List Char) : Option CommitEntry :=
  if pyStrip line = [] then none
  else
    let parts := pySplitWs2 line
    if parts.length ≥ 2 then
      some { hash := if parts.length > 1 then String.mk (((parts.drop 1).headD []).take 7) else ""
             message := if parts.length > 2 then String.mk ((parts.drop 2).headD []) else String.mk line
             time := "" }
    else none

/-- `serve_git_activity`: parse the captured stdout line by line (the
exit status is never inspected); a raised exception becomes
`send_error(500, str(e))` via the surrounding `except`. -/
def serve_git_activity (run : RunResult) : GitResponse :=
  match run with
  | RunResult.ok _ stdout =>
    GitResponse.ok ((splitOnNL stdout.data).filterMap parseGitLine)
  | RunResult.raised msg => GitResponse.err 500 msg

/-- Join lines with `'\n'` (inverse of `splitOnNL` on newline-free
lines). -/
def joinNL : List (List Char) → List Char
  | [] => []
  | [l] => l
  | l :: ls => l ++ '\n' :: joinNL ls

/-- Modelled from the spec: the output of the external VCS history query
`git log --all --oneline --graph --decorate -15` is not part of this
repository; §4.4 describes it as one line per commit, graph/decoration
enabled, bounded to 15 entries. For a linear history each of the first 15
commits yields one line `* <hash> <subject>` (graph connector lines of
merge topologies are not modelled). -/
def gitLogLine (c : String × String) : List Char :=
  '*' :: ' ' :: (c.1.data ++ ' ' :: c.2.data)

/-- Modelled from the spec (continued): the bounded history query output
is the first 15 commit lines joined by newlines. -/
def gitLogStdout (commits : List (String × String)) : String :=
  String.mk (joinNL ((commits.take 15).map gitLogLine))

/-- A probe environment in which no module directory exists (used to
instantiate universally quantified theorems). -/
def offEnv : ProbeEnv :=
  { dirExists := fun _ => false
    revList := fun _ => RunResult.ok 0 ""
    lastLog := fun _ => RunResult.ok 0 "" }

/-- The per-probe failure condition of the specification: the query exits
non-zero (or does not run at all). -/
def queryFailed : RunResult → Prop
  | RunResult.ok rc _ => rc ≠ 0
  | RunResult.raised _ => True

/-- A document with one table row whose percentage field is `450%`. -/
def cexDoc : String := "| 1 | Mixer | \u00FC Started | 450%"

/-- The exact end-to-end row of the specification (with the real emoji
U+1F7E1). -/
def c5doc : String := "| 2 | Audio Engine | 🟡 In Progress | 45% |"

/-- A document with two well-formed rows sharing the id `1`. -/
def c10doc : String :=
  "| 1 | A | \u00FC x | 10%\n| 1 | B | \u00FC y | 20%"

/-! ### Progress lemmas: every successful match strictly consumes input -/

theorem eatChar_length {c : Char} {s s' : List Char}
    (h : eatChar c s = some s') : s'.length < s.length := by
  cases s with
  | nil => simp [eatChar] at h
  | cons x t =>
    by_cases hx : x = c
    · simp [eatChar, hx] at h
      simp [← h]
    · simp [eatChar, hx] at h

theorem eatDigits_length {s : List Char} {p : List Char × List Char}
    (h : eatDigits s = some p) : p.2.length < s.length := by
  unfold eatDigits at h
  by_cases hd : s.takeWhile Char.isDigit = []
  · simp [hd] at h
  · simp only [hd, if_neg, ite_false] at h
    have hsplit := List.takeWhile_append_dropWhile (p := Char.isDigit) (l := s)
    have hlen : (s.takeWhile Char.isDigit).length + (s.dropWhile Char.isDigit).length = s.length := by
      rw [← List.length_append, hsplit]
    have hpos : 0 < (s.takeWhile Char.isDigit).length := List.length_pos.mpr hd
    have h2 : p.2 = s.dropWhile Char.isDigit := by
      cases h; rfl
    rw [h2]; omega

theorem eatGlyph_length {s : List Char} {p : Char × List Char}
    (h : eatGlyph s = some p) : p.2.length < s.length := by
  cases s with
  | nil => simp [eatGlyph] at h
  | cons x t =>
    by_cases hx : isGlyph x
    · simp [eatGlyph, hx] at h
      rw [← h]; simp
    · simp [eatGlyph, hx] at h

theorem contAfterG4_length {s : List Char} {p : List Char × List Char}
    (h : contAfterG4 s = some p) : p.2.length < s.length := by
  unfold contAfterG4 at h
  cases h1 : eatChar ' ' s with
  | none => rw [h1] at h; simp at h
  | some s1 =>
    rw [h1] at h; rw [Option.some_bind] at h
    cases h2 : eatChar '|' s1 with
    | none => rw [h2] at h; simp at h
    | some s2 =>
      rw [h2] at h; rw [Option.some_bind] at h
      cases h3 : eatChar ' ' s2 with
      | none => rw [h3] at h; simp at h
      | some s3 =>
        rw [h3] at h; rw [Option.some_bind] at h
        cases h4 : eatDigits s3 with
        | none => rw [h4] at h; simp at h
        | some q =>
          rw [h4] at h; rw [Option.some_bind] at h
          cases h5 : eatChar '%' q.2 with
          | none => rw [h5] at h; simp at h
          | some s4 =>
            rw [h5] at h; simp at h
            have e5 := eatChar_length h5
            have e4 := eatDigits_length h4
            have e3 := eatChar_length h3
            have e2 := eatChar_length h2
            have e1 := eatChar_length h1
            have : p.2 = s4 := by rw [← h]
            rw [this]; omega

theorem g4loop_length {s : List Char} :
    ∀ {acc : List Char} {r : G4Res}, g4loop acc s = some r → r.rest.length < s.length := by
  induction s with
  | nil => intro acc r h; simp [g4loop] at h
  | cons c rest ih =>
    intro acc r h
    by_cases hc : c = '\n'
    · simp [g4loop, hc] at h
    · simp only [g4loop, hc, ite_false, if_neg] at h
      cases hm : contAfterG4 rest with
      | some p =>
        rw [hm] at h
        have := contAfterG4_length hm
        cases h
        simp only [List.length_cons]; omega
      | none =>
        rw [hm] at h
        have := ih h
        simp only [List.length_cons]; omega

theorem contAfterG2_length {s : List Char} {p : Char × G4Res}
    (h : contAfterG2 s = some p) : p.2.rest.length < s.length := by
  unfold contAfterG2 at h
  cases h1 : eatChar ' ' s with
  | none => rw [h1] at h; simp at h
  | some s1 =>
    rw [h1] at h; rw [Option.some_bind] at h
    cases h2 : eatChar '|' s1 with
    | none => rw [h2] at h; simp at h
    | some s2 =>
      rw [h2] at h; rw [Option.some_bind] at h
      cases h3 : eatChar ' ' s2 with
      | none => rw [h3] at h; simp at h
      | some s3 =>
        rw [h3] at h; rw [Option.some_bind] at h
        cases h4 : eatGlyph s3 with
        | none => rw [h4] at h; simp at h
        | some g =>
          rw [h4] at h; rw [Option.some_bind] at h
          cases h5 : eatChar ' ' g.2 with
          | none => rw [h5] at h; simp at h
          | some s4 =>
            rw [h5] at h; rw [Option.some_bind] at h
            cases h6 : g4loop [] s4 with
            | none => rw [h6] at h; simp at h
            | some r =>
              rw [h6] at h; simp at h
              have e6 := g4loop_length h6
              have e5 := eatChar_length h5
              have e4 := eatGlyph_length h4
              have e3 := eatChar_length h3
              have e2 := eatChar_length h2
              have e1 := eatChar_length h1
              have : p.2 = r := by rw [← h]
              rw [this]; omega

theorem g2loop_length {s : List Char} :
    ∀ {acc : List Char} {r : G2Res}, g2loop acc s = some r → r.rest.length < s.length := by
  induction s with
  | nil => intro acc r h; simp [g2loop] at h
  | cons c rest ih =>
    intro acc r h
    by_cases hc : c = '\n'
    · simp [g2loop, hc] at h
    · simp only [g2loop, hc, ite_false, if_neg] at h
      cases hm : contAfterG2 rest with
      | some p =>
        rw [hm] at h
        have := contAfterG2_length hm
        cases h
        simp only [List.length_cons]; omega
      | none =>
        rw [hm] at h
        have := ih h
        simp only [List.length_cons]; omega

theorem matchRowAt_length {s : List Char} {p : RowMatch × List Char}
    (h : matchRowAt s = some p) : p.2.length < s.length := by
  unfold matchRowAt at h
  cases h1 : eatChar '|' s with
  | none => rw [h1] at h; simp at h
  | some s1 =>
    rw [h1] at h; rw [Option.some_bind] at h
    cases h2 : eatChar ' ' s1 with
    | none => rw [h2] at h; simp at h
    | some s2 =>
      rw [h2] at h; rw [Option.some_bind] at h
      cases h3 : eatDigits s2 with
      | none => rw [h3] at h; simp at h
      | some num =>
        rw [h3] at h; rw [Option.some_bind] at h
        cases h4 : eatChar ' ' num.2 with
        | none => rw [h4] at h; simp at h
        | some s3 =>
          rw [h4] at h; rw [Option.some_bind] at h
          cases h5 : eatChar '|' s3 with
          | none => rw [h5] at h; simp at h
          | some s4 =>
            rw [h5] at h; rw [Option.some_bind] at h
            cases h6 : eatChar ' ' s4 with
            | none => rw [h6] at h; simp at h
            | some s5 =>
              rw [h6] at h; rw [Option.some_bind] at h
              cases h7 : g2loop [] s5 with
              | none => rw [h7] at h; simp at h
              | some r =>
                rw [h7] at h; simp at h
                have e7 := g2loop_length h7
                have e6 := eatChar_length h6
                have e5 := eatChar_length h5
                have e4 := eatChar_length h4
                have e3 := eatDigits_length h3
                have e2 := eatChar_length h2
                have e1 := eatChar_length h1
                have : p.2 = r.rest := by rw [← h]
                rw [this]; omega

/-! ### Fuel elimination for the scanner -/

theorem scanAux_fuel : ∀ (f g : Nat) (s : List Char),
    s.length ≤ f → s.length ≤ g → scanAux f s = scanAux g s := by
  intro f
  induction f with
  | zero =>
    intro g s hf _
    have : s = [] := List.length_eq_zero.mp (Nat.le_zero.mp hf)
    subst this
    cases g <;> simp [scanAux]
  | succ f' ih =>
    intro g s hf hg
    cases s with
    | nil => cases g <;> simp [scanAux]
    | cons c rest =>
      cases g with
      | zero => simp [List.length_cons] at hg
      | succ g' =>
        simp only [scanAux]
        cases hm : matchRowAt (c :: rest) with
        | some p =>
          have hlt := matchRowAt_length hm
          simp only [List.length_cons] at hf hg hlt
          show p.1 :: scanAux f' p.2 = p.1 :: scanAux g' p.2
          rw [ih g' p.2 (by omega) (by omega)]
        | none =>
          simp only [List.length_cons] at hf hg
          show scanAux f' rest = scanAux g' rest
          exact ih g' rest (by omega) (by omega)

theorem scanRows_nil : scanRows [] = [] := rfl

theorem scanRows_cons_some {c : Char} {rest : List Char} {p : RowMatch × List Char}
    (h : matchRowAt (c :: rest) = some p) :
    scanRows (c :: rest) = p.1 :: scanRows p.2 := by
  have hlt := matchRowAt_length h
  simp only [List.length_cons] at hlt
  unfold scanRows
  simp only [List.length_cons, scanAux, h]
  rw [scanAux_fuel rest.length p.2.length p.2 (by omega) (by omega)]

theorem scanRows_cons_none {c : Char} {rest : List Char}
    (h : matchRowAt (c :: rest) = none) :
    scanRows (c :: rest) = scanRows rest := by
  unfold scanRows
  simp only [List.length_cons, scanAux, h]

/-! ### Matches never cross a newline: appending `'\n' :: t` is invisible -/

theorem takeWhile_append_stop {p : Char → Bool} {c : Char} (hc : p c = false) :
    ∀ (l t : List Char), (l ++ c :: t).takeWhile p = l.takeWhile p := by
  intro l t
  induction l with
  | nil => simp [List.takeWhile, hc]
  | cons x l' ih =>
    by_cases hx : p x
    · simp [List.takeWhile, hx, ih]
    · simp [List.takeWhile, hx]

theorem dropWhile_append_stop {p : Char → Bool} {c : Char} (hc : p c = false) :
    ∀ (l t : List Char), (l ++ c :: t).dropWhile p = l.dropWhile p ++ c :: t := by
  intro l t
  induction l with
  | nil => simp [List.dropWhile, hc]
  | cons x l' ih =>
    by_cases hx : p x
    · simp [List.dropWhile, hx, ih]
    · simp [List.dropWhile, hx]

theorem eatChar_append {c : Char} (hc : c ≠ '\n') (l t : List Char) :
    eatChar c (l ++ '\n' :: t) = (eatChar c l).map (· ++ '\n' :: t) := by
  cases l with
  | nil =>
    have : ('\n' : Char) ≠ c := fun h => hc h.symm
    simp [eatChar, this]
  | cons x l' =>
    by_cases hx : x = c
    · simp [eatChar, hx]
    · simp [eatChar, hx]

theorem eatDigits_append (l t : List Char) :
    eatDigits (l ++ '\n' :: t) = (eatDigits l).map fun p => (p.1, p.2 ++ '\n' :: t) := by
  unfold eatDigits
  rw [takeWhile_append_stop (by decide) l t, dropWhile_append_stop (by decide) l t]
  by_cases hd : l.takeWhile Char.isDigit = []
  · simp [hd]
  · simp [hd]

theorem eatGlyph_append (l t : List Char) :
    eatGlyph (l ++ '\n' :: t) = (eatGlyph l).map fun p => (p.1, p.2 ++ '\n' :: t) := by
  cases l with
  | nil =>
    have : isGlyph '\n' = false := by decide
    simp [eatGlyph, this]
  | cons x l' =>
    by_cases hx : isGlyph x
    · simp [eatGlyph, hx]
    · simp [eatGlyph, hx]

theorem contAfterG4_append (l t : List Char) :
    contAfterG4 (l ++ '\n' :: t) = (contAfterG4 l).map fun p => (p.1, p.2 ++ '\n' :: t) := by
  unfold contAfterG4
  rw [eatChar_append (by decide) l t]
  cases eatChar ' ' l with
  | none => rfl
  | some s1 =>
    simp only [Option.map_some', Option.some_bind]
    rw [eatChar_append (by decide) s1 t]
    cases eatChar '|' s1 with
    | none => rfl
    | some s2 =>
      simp only [Option.map_some', Option.some_bind]
      rw [eatChar_append (by decide) s2 t]
      cases eatChar ' ' s2 with
      | none => rfl
      | some s3 =>
        simp only [Option.map_some', Option.some_bind]
        rw [eatDigits_append s3 t]
        cases eatDigits s3 with
        | none => rfl
        | some q =>
          simp only [Option.map_some', Option.some_bind]
          rw [eatChar_append (by decide) q.2 t]
          cases eatChar '%' q.2 with
          | none => rfl
          | some s4 => rfl

theorem g4loop_append (l : List Char) :
    ∀ (acc t : List Char),
      g4loop acc (l ++ '\n' :: t) =
        (g4loop acc l).map fun r => { r with rest := r.rest ++ '\n' :: t } := by
  induction l with
  | nil =>
    intro acc t
    simp [g4loop]
  | cons c l' ih =>
    intro acc t
    by_cases hc : c = '\n'
    · simp [g4loop, hc]
    · simp only [List.cons_append, g4loop, hc, ite_false, if_neg, List.append_eq]
      rw [contAfterG4_append l' t]
      cases contAfterG4 l' with
      | none => exact ih (acc ++ [c]) t
      | some p => rfl

theorem contAfterG2_append (l t : List Char) :
    contAfterG2 (l ++ '\n' :: t) =
      (contAfterG2 l).map fun p => (p.1, { p.2 with rest := p.2.rest ++ '\n' :: t }) := by
  unfold contAfterG2
  rw [eatChar_append (by decide) l t]
  cases eatChar ' ' l with
  | none => rfl
  | some s1 =>
    simp only [Option.map_some', Option.some_bind]
    rw [eatChar_append (by decide) s1 t]
    cases eatChar '|' s1 with
    | none => rfl
    | some s2 =>
      simp only [Option.map_some', Option.some_bind]
      rw [eatChar_append (by decide) s2 t]
      cases eatChar ' ' s2 with
      | none => rfl
      | some s3 =>
        simp only [Option.map_some', Option.some_bind]
        rw [eatGlyph_append s3 t]
        cases eatGlyph s3 with
        | none => rfl
        | some g =>
          simp only [Option.map_some', Option.some_bind]
          rw [eatChar_append (by decide) g.2 t]
          cases eatChar ' ' g.2 with
          | none => rfl
          | some s4 =>
            simp only [Option.map_some', Option.some_bind]
            rw [g4loop_append s4 [] t]
            cases g4loop [] s4 with
            | none => rfl
            | some r => rfl

theorem g2loop_append (l : List Char) :
    ∀ (acc t : List Char),
      g2loop acc (l ++ '\n' :: t) =
        (g2loop acc l).map fun r => { r with rest := r.rest ++ '\n' :: t } := by
  induction l with
  | nil =>
    intro acc t
    simp [g2loop]
  | cons c l' ih =>
    intro acc t
    by_cases hc : c = '\n'
    · simp [g2loop, hc]
    · simp only [List.cons_append, g2loop, hc, ite_false, if_neg, List.append_eq]
      rw [contAfterG2_append l' t]
      cases contAfterG2 l' with
      | none => exact ih (acc ++ [c]) t
      | some p => rfl

theorem matchRowAt_append (l t : List Char) :
    matchRowAt (l ++ '\n' :: t) =
      (matchRowAt l).map fun p => (p.1, p.2 ++ '\n' :: t) := by
  unfold matchRowAt
  rw [eatChar_append (by decide) l t]
  cases eatChar '|' l with
  | none => rfl
  | some s1 =>
    simp only [Option.map_some', Option.some_bind]
    rw [eatChar_append (by decide) s1 t]
    cases eatChar ' ' s1 with
    | none => rfl
    | some s2 =>
      simp only [Option.map_some', Option.some_bind]
      rw [eatDigits_append s2 t]
      cases eatDigits s2 with
      | none => rfl
      | some num =>
        simp only [Option.map_some', Option.some_bind]
        rw [eatChar_append (by decide) num.2 t]
        cases eatChar ' ' num.2 with
        | none => rfl
        | some s3 =>
          simp only [Option.map_some', Option.some_bind]
          rw [eatChar_append (by decide) s3 t]
          cases eatChar '|' s3 with
          | none => rfl
          | some s4 =>
            simp only [Option.map_some', Option.some_bind]
            rw [eatChar_append (by decide) s4 t]
            cases eatChar ' ' s4 with
            | none => rfl
            | some s5 =>
              simp only [Option.map_some', Option.some_bind]
              rw [g2loop_append s5 [] t]
              cases g2loop [] s5 with
              | none => rfl
              | some r => rfl

theorem matchRowAt_newline_head (t : List Char) : matchRowAt ('\n' :: t) = none := by
  unfold matchRowAt
  have : eatChar '|' ('\n' :: t) = none := by simp [eatChar]
  rw [this]; rfl

theorem scanRows_append_nl : ∀ (l t : List Char),
    scanRows (l ++ '\n' :: t) = scanRows l ++ scanRows t := by
  have key : ∀ (n : Nat) (l t : List Char), l.length ≤ n →
      scanRows (l ++ '\n' :: t) = scanRows l ++ scanRows t := by
    intro n
    induction n with
    | zero =>
      intro l t hl
      have : l = [] := List.length_eq_zero.mp (Nat.le_zero.mp hl)
      subst this
      simp only [List.nil_append, scanRows_nil, List.nil_append]
      exact scanRows_cons_none (matchRowAt_newline_head t)
    | succ n' ih =>
      intro l t hl
      cases l with
      | nil =>
        simp only [List.nil_append, scanRows_nil, List.nil_append]
        exact scanRows_cons_none (matchRowAt_newline_head t)
      | cons c l' =>
        cases hm : matchRowAt (c :: l') with
        | none =>
          have hm' : matchRowAt ((c :: l') ++ '\n' :: t) = none := by
            rw [matchRowAt_append (c :: l') t, hm]; rfl
          rw [List.cons_append] at hm' ⊢
          rw [scanRows_cons_none hm', scanRows_cons_none hm]
          simp only [List.length_cons] at hl
          exact ih l' t (by omega)
        | some p =>
          have hm' : matchRowAt ((c :: l') ++ '\n' :: t) = some (p.1, p.2 ++ '\n' :: t) := by
            rw [matchRowAt_append (c :: l') t, hm]; rfl
          have hlt := matchRowAt_length hm
          simp only [List.length_cons] at hlt hl
          rw [List.cons_append] at hm' ⊢
          rw [scanRows_cons_some hm', scanRows_cons_some hm]
          have := ih p.2 t (by omega)
          simp only at this ⊢
          rw [this]
          simp
  intro l t
  exact key l.length l t (Nat.le_refl _)

/-- The scan of a whole document is the concatenation, line by line in
document order, of the scan of each line (a match never spans a newline:
no pattern element of the table row accepts `'\n'`). -/
theorem scanRows_joinNL : ∀ (ls : List (List Char)),
    scanRows (joinNL ls) = (ls.map scanRows).flatten := by
  intro ls
  induction ls with
  | nil => simp [joinNL, scanRows_nil]
  | cons l rest ih =>
    cases rest with
    | nil => simp [joinNL]
    | cons x xs =>
      show scanRows (l ++ '\n' :: joinNL (x :: xs)) = _
      rw [scanRows_append_nl l (joinNL (x :: xs)), ih]
      simp

/-! ### Dict lemmas: lookup, uniqueness of keys, last-insertion-wins -/

theorem getLast?_some_of_cons {α : Type} (x : α) (xs : List α) :
    ∃ z, (x :: xs).getLast? = some z := by
  induction xs generalizing x with
  | nil => exact ⟨x, by simp⟩
  | cons y ys ih =>
    obtain ⟨z, hz⟩ := ih y
    exact ⟨z, by rw [List.getLast?_cons_cons]; exact hz⟩

theorem dictLookup_dictInsert {V : Type} (d : List (String × V)) (k : String) (v : V)
    (k' : String) :
    dictLookup (dictInsert d k v) k' = if k = k' then some v else dictLookup d k' := by
  induction d with
  | nil =>
    by_cases h : k = k'
    · simp [dictInsert, dictLookup, h]
    · simp [dictInsert, dictLookup, h]
  | cons p d' ih =>
    by_cases hp : p.1 = k
    · by_cases h : k = k'
      · simp [dictInsert, dictLookup, hp, h]
      · have hpk : ¬ p.1 = k' := fun hh => h (hp.symm.trans hh)
        simp [dictInsert, dictLookup, hp, h, hpk]
    · by_cases hq : p.1 = k'
      · have hk : ¬ k = k' := fun hh => hp (hq.trans hh.symm)
        have hk2 : ¬ k' = k := fun hh => hk hh.symm
        simp [dictInsert, dictLookup, hp, hq, hk, hk2]
      · simp [dictInsert, dictLookup, hp, hq, ih]

theorem dictInsert_keys_mem {V : Type} (d : List (String × V)) (k : String) (v : V)
    (k' : String) :
    k' ∈ (dictInsert d k v).map Prod.fst ↔ k' ∈ d.map Prod.fst ∨ k' = k := by
  induction d with
  | nil => simp [dictInsert]
  | cons p d' ih =>
    by_cases hp : p.1 = k
    · simp only [dictInsert, hp, ite_true, if_pos, List.map_cons, List.mem_cons]
      constructor
      · intro h
        cases h with
        | inl h => exact Or.inr h
        | inr h => exact Or.inl (Or.inr h)
      · intro h
        cases h with
        | inl h =>
          cases h with
          | inl h => exact Or.inl (hp ▸ h)
          | inr h => exact Or.inr h
        | inr h => exact Or.inl h
    · simp only [dictInsert, hp, ite_false, if_neg, List.map_cons, List.mem_cons, ih]
      tauto

theorem dictInsert_keys_nodup {V : Type} (d : List (String × V)) (k : String) (v : V)
    (h : (d.map Prod.fst).Nodup) : ((dictInsert d k v).map Prod.fst).Nodup := by
  induction d with
  | nil => simp [dictInsert]
  | cons p d' ih =>
    simp only [List.map_cons, List.nodup_cons] at h
    by_cases hp : p.1 = k
    · simp only [dictInsert, hp, ite_true, if_pos, List.map_cons, List.nodup_cons]
      exact ⟨hp ▸ h.1, h.2⟩
    · simp only [dictInsert, hp, ite_false, if_neg, List.map_cons, List.nodup_cons]
      refine ⟨?_, ih h.2⟩
      rw [dictInsert_keys_mem]
      intro hc
      cases hc with
      | inl hc => exact h.1 hc
      | inr hc => exact hp hc

/-- Characterization of the dict built by folding insertions over a list:
a key maps to the value produced by the *last* element carrying it. -/
theorem foldl_dictInsert_lookup {A V : Type} (f : A → String × V) :
    ∀ (l : List A) (init : List (String × V)) (k : String),
      dictLookup (l.foldl (fun d a => dictInsert d (f a).1 (f a).2) init) k =
        ((l.filter fun a => (f a).1 = k).getLast?).elim (dictLookup init k)
          (fun a => some (f a).2) := by
  intro l
  induction l with
  | nil => intro init k; simp
  | cons a l' ih =>
    intro init k
    simp only [List.foldl_cons]
    rw [ih (dictInsert init (f a).1 (f a).2) k]
    by_cases ha : (f a).1 = k
    · rw [List.filter_cons_of_pos (by simp [ha])]
      cases hfil : l'.filter (fun x => (f x).1 = k) with
      | nil =>
        simp only [List.getLast?_nil, List.getLast?_singleton, Option.elim]
        rw [dictLookup_dictInsert, if_pos ha]
      | cons x xs =>
        rw [List.getLast?_cons_cons]
        obtain ⟨z, hz⟩ := getLast?_some_of_cons x xs
        rw [hz]
        rfl
    · rw [List.filter_cons_of_neg (by simp [ha])]
      cases hfil : l'.filter (fun x => (f x).1 = k) with
      | nil =>
        simp only [List.getLast?_nil, Option.elim]
        rw [dictLookup_dictInsert, if_neg ha]
      | cons x xs =>
        obtain ⟨z, hz⟩ := getLast?_some_of_cons x xs
        rw [hz]
        rfl

theorem buildModules_keys_nodup (env : ProbeEnv) (content : String) :
    ((buildModules env content).map Prod.fst).Nodup := by
  unfold buildModules
  generalize scanRows content.data = ms
  have key : ∀ (l : List RowMatch) (init : List (String × ModuleRecord)),
      (init.map Prod.fst).Nodup →
      ((l.foldl (fun d m => dictInsert d (recordOfMatch env m).1 (recordOfMatch env m).2)
        init).map Prod.fst).Nodup := by
    intro l
    induction l with
    | nil => intro init h; exact h
    | cons m l' ih =>
      intro init h
      exact ih _ (dictInsert_keys_nodup _ _ _ h)
  exact key ms [] (by simp)

theorem buildModules_lookup (env : ProbeEnv) (content : String) (k : String) :
    dictLookup (buildModules env content) k =
      (((scanRows content.data).filter fun m => (recordOfMatch env m).1 = k).getLast?).elim
        none (fun m => some (recordOfMatch env m).2) := by
  unfold buildModules
  rw [foldl_dictInsert_lookup (recordOfMatch env) (scanRows content.data) [] k]
  rfl

/-! ### Helpers for whitespace splitting and line handling -/

theorem takeWhile_append_all {p : Char → Bool} :
    ∀ {l t : List Char}, (∀ x ∈ l, p x = true) →
      (l ++ t).takeWhile p = l ++ t.takeWhile p := by
  intro l
  induction l with
  | nil => intro t _; simp
  | cons x l' ih =>
    intro t hl
    have hx : p x = true := hl x (by simp)
    simp only [List.cons_append, List.takeWhile_cons, hx, ite_true, if_pos]
    rw [ih fun y hy => hl y (by simp [hy])]

theorem dropWhile_append_all {p : Char → Bool} :
    ∀ {l t : List Char}, (∀ x ∈ l, p x = true) →
      (l ++ t).dropWhile p = t.dropWhile p := by
  intro l
  induction l with
  | nil => intro t _; simp
  | cons x l' ih =>
    intro t hl
    have hx : p x = true := hl x (by simp)
    simp only [List.cons_append, List.dropWhile_cons, hx, ite_true, if_pos]
    exact ih fun y hy => hl y (by simp [hy])

theorem dropWhile_cons_head_false {p : Char → Bool} :
    ∀ {l : List Char} {c : Char} {r : List Char},
      l.dropWhile p = c :: r → p c = false := by
  intro l
  induction l with
  | nil => intro c r h; simp [List.dropWhile] at h
  | cons x l' ih =>
    intro c r h
    by_cases hx : p x
    · rw [List.dropWhile_cons, if_pos hx] at h
      exact ih h
    · rw [List.dropWhile_cons, if_neg hx] at h
      cases h
      exact Bool.of_not_eq_true hx

theorem pyStrip_ne_nil_of_dropWhile {s : List Char} {c : Char} {r : List Char}
    (h : s.dropWhile isPyWs = c :: r) : pyStrip s ≠ [] := by
  intro hs
  unfold pyStrip at hs
  rw [h] at hs
  have h2 : (c :: r).reverse.dropWhile isPyWs = [] := by
    have := congrArg List.reverse hs
    simpa using this
  have hall := List.dropWhile_eq_nil_iff.mp h2
  have hc : isPyWs c = true := hall c (by simp)
  have := dropWhile_cons_head_false h
  rw [this] at hc
  exact Bool.false_ne_true hc

theorem pySplitWsAux_length : ∀ (n : Nat) (s : List Char),
    (pySplitWsAux n s).length ≤ n + 1 := by
  intro n
  induction n with
  | zero =>
    intro s
    unfold pySplitWsAux
    cases s.dropWhile isPyWs <;> simp
  | succ m ih =>
    intro s
    unfold pySplitWsAux
    cases hd : s.dropWhile isPyWs with
    | nil => simp
    | cons c rest =>
      simp only [List.length_cons]
      have := ih ((c :: rest).dropWhile fun x => !isPyWs x)
      omega

theorem filterMap_length_of_all_some {α β : Type} (f : α → Option β) :
    ∀ (l : List α), (∀ x ∈ l, (f x).isSome) → (l.filterMap f).length = l.length := by
  intro l
  induction l with
  | nil => intro _; simp
  | cons x l' ih =>
    intro h
    have hx := h x (by simp)
    cases hfx : f x with
    | none => rw [hfx] at hx; simp at hx
    | some b =>
      rw [List.filterMap_cons, hfx]
      simp only [List.length_cons]
      rw [ih fun y hy => h y (by simp [hy])]

theorem splitOnNL_no_nl : ∀ {l : List Char}, '\n' ∉ l → splitOnNL l = [l] := by
  intro l
  induction l with
  | nil => intro _; rfl
  | cons c r ih =>
    intro h
    have hc : c ≠ '\n' := fun hh => h (hh ▸ List.mem_cons_self c r)
    have hr : '\n' ∉ r := fun hh => h (List.mem_cons_of_mem c hh)
    have hcc : ¬ c = '\n' := hc
    simp only [splitOnNL, hcc, ite_false, if_neg, ih hr]

theorem splitOnNL_append_nl {l : List Char} (hl : '\n' ∉ l) (t : List Char) :
    splitOnNL (l ++ '\n' :: t) = l :: splitOnNL t := by
  induction l with
  | nil => simp [splitOnNL]
  | cons c r ih =>
    have hc : ¬ c = '\n' := fun hh => hl (hh ▸ List.mem_cons_self c r)
    have hr : '\n' ∉ r := fun hh => hl (List.mem_cons_of_mem c hh)
    simp only [List.cons_append, splitOnNL, hc, ite_false, if_neg, List.append_eq, ih hr]

theorem splitOnNL_joinNL : ∀ {ls : List (List Char)}, ls ≠ [] →
    (∀ l ∈ ls, '\n' ∉ l) → splitOnNL (joinNL ls) = ls := by
  intro ls
  induction ls with
  | nil => intro h _; exact absurd rfl h
  | cons l rest ih =>
    intro _ hnl
    cases rest with
    | nil =>
      show splitOnNL (joinNL [l]) = [l]
      exact splitOnNL_no_nl (hnl l (by simp))
    | cons x xs =>
      show splitOnNL (l ++ '\n' :: joinNL (x :: xs)) = l :: (x :: xs)
      rw [splitOnNL_append_nl (hnl l (by simp)) (joinNL (x :: xs))]
      rw [ih (by simp) fun y hy => hnl y (by simp [hy])]

theorem pySplitWsAux_ne_nil {n : Nat} {s : List Char} (h : pySplitWsAux n s ≠ []) :
    ∃ c r, s.dropWhile isPyWs = c :: r := by
  unfold pySplitWsAux at h
  cases hd : s.dropWhile isPyWs with
  | nil => rw [hd] at h; simp at h
  | cons c r => exact ⟨c, r, rfl⟩

theorem pySplitWsAux_commit_line (h0 : Char) (h'' s : List Char)
    (hws : ∀ c ∈ h0 :: h'', isPyWs c = false) :
    pySplitWsAux 2 ('*' :: ' ' :: ((h0 :: h'') ++ ' ' :: s)) =
      ['*'] :: (h0 :: h'') :: pySplitWsAux 0 (' ' :: s) := by
  have e1 : isPyWs '*' = false := by decide
  have e2 : isPyWs ' ' = true := by decide
  have hws0 : isPyWs h0 = false := hws h0 (by simp)
  have hwsAll : ∀ x ∈ h0 :: h'', (!isPyWs x) = true := by
    intro x hx; simp [hws x hx]
  simp only [List.cons_append]
  have d1 : List.dropWhile isPyWs ('*' :: ' ' :: h0 :: (h'' ++ ' ' :: s)) =
      '*' :: ' ' :: h0 :: (h'' ++ ' ' :: s) := by
    rw [List.dropWhile_cons, e1]; simp
  have t1 : List.takeWhile (fun c => !isPyWs c) ('*' :: ' ' :: h0 :: (h'' ++ ' ' :: s)) =
      ['*'] := by
    simp [List.takeWhile_cons, e1, e2]
  have dr1 : List.dropWhile (fun c => !isPyWs c) ('*' :: ' ' :: h0 :: (h'' ++ ' ' :: s)) =
      ' ' :: h0 :: (h'' ++ ' ' :: s) := by
    simp [List.dropWhile_cons, e1, e2]
  have d2 : List.dropWhile isPyWs (' ' :: h0 :: (h'' ++ ' ' :: s)) =
      h0 :: (h'' ++ ' ' :: s) := by
    rw [List.dropWhile_cons, e2]
    simp only [ite_true, if_pos, List.dropWhile_cons, hws0]
    simp
  have t2 : List.takeWhile (fun c => !isPyWs c) (h0 :: (h'' ++ ' ' :: s)) = h0 :: h'' := by
    rw [← List.cons_append, takeWhile_append_all hwsAll]
    simp [List.takeWhile_cons, e2]
  have dr2 : List.dropWhile (fun c => !isPyWs c) (h0 :: (h'' ++ ' ' :: s)) = ' ' :: s := by
    rw [← List.cons_append, dropWhile_append_all hwsAll]
    simp [List.dropWhile_cons, e2]
  conv_lhs => rw [pySplitWsAux]
  rw [d1]
  simp only []
  rw [t1, dr1]
  conv_lhs => rw [pySplitWsAux]
  rw [d2]
  simp only []
  rw [t2, dr2]

theorem parseGitLine_commit_line (h s : List Char) (hne : h ≠ [])
    (hws : ∀ c ∈ h, isPyWs c = false) :
    (parseGitLine ('*' :: ' ' :: (h ++ ' ' :: s))).isSome := by
  obtain ⟨h0, h'', rfl⟩ : ∃ h0 h'', h = h0 :: h'' := by
    cases h with
    | nil => exact absurd rfl hne
    | cons a b => exact ⟨a, b, rfl⟩
  have hstrip : pyStrip ('*' :: ' ' :: ((h0 :: h'') ++ ' ' :: s)) ≠ [] := by
    apply pyStrip_ne_nil_of_dropWhile (c := '*') (r := ' ' :: ((h0 :: h'') ++ ' ' :: s))
    rw [List.dropWhile_cons]
    simp [show isPyWs '*' = false from by decide]
  have hsplit := pySplitWsAux_commit_line h0 h'' s hws
  unfold parseGitLine
  rw [if_neg hstrip]
  simp only [pySplitWs2, hsplit]
  have hlen : (['*'] :: (h0 :: h'') :: pySplitWsAux 0 (' ' :: s)).length ≥ 2 := by
    simp only [List.length_cons]; omega
  rw [if_pos hlen]
  simp

/-! ### Claim theorems -/

/-- C1 (corrected, counterexample): the claim that `progressPercent` is
always in [0,100] is false: the pattern's `(\d+)%` puts no upper bound on
the captured digits, so the row `| 1 | Mixer | ü Started | 450%` yields a
record with progress 450. -/
theorem C1_progress_can_exceed_100 :
    (scanRows cexDoc.data).map (fun m => (recordOfMatch offEnv m).2.progress) = [450] ∧
    ¬ ∀ m ∈ scanRows cexDoc.data, (recordOfMatch offEnv m).2.progress ≤ 100 := by
  exact ⟨by decide, by decide⟩

/-- C1 (amended): every record the parser emits has a nonnegative
progress — the captured `\d+` digits are unsigned — but the value is not
bounded above by 100. -/
theorem C1_progress_nonneg (env : ProbeEnv) (content : String) (m : RowMatch)
    (_hm : m ∈ scanRows content.data) :
    0 ≤ (recordOfMatch env m).2.progress := by
  show (0 : Int) ≤ (digitsToNat m.pct : Int)
  exact Int.ofNat_nonneg _

theorem C1_progress_nonneg_witness :
    0 ≤ (recordOfMatch offEnv
      { num := ['1'], name := "Mixer".data, glyph := Char.ofNat 0xFC,
        text := "Started".data, pct := ['4', '5', '0'] }).2.progress :=
  C1_progress_nonneg offEnv cexDoc _ (by decide)

/-- C2 (corrected, counterexample): the claim that a line with fewer than
two whitespace segments still yields an entry (whole line as message,
empty hash) is false: `serve_git_activity` silently drops such lines —
the stdout line `*` produces an empty commit list, not the claimed
entry. -/
theorem C2_short_line_dropped :
    serve_git_activity (RunResult.ok 0 "*") = GitResponse.ok [] ∧
    serve_git_activity (RunResult.ok 0 "*") ≠
      GitResponse.ok [{ hash := "", message := "*", time := "" }] := by
  exact ⟨by decide, by decide⟩

/-- C2 (amended): every line splits into at most three whitespace
segments; a line with fewer than two segments yields no entry (it is
dropped); a line with exactly two segments yields an entry whose message
is the entire line and whose hash is the first seven characters of the
second segment. -/
theorem C2_git_line_segments (line : List Char) :
    (pySplitWs2 line).length ≤ 3 ∧
    ((pySplitWs2 line).length < 2 → parseGitLine line = none) ∧
    ((pySplitWs2 line).length = 2 →
      parseGitLine line = some
        { hash := String.mk ((((pySplitWs2 line).drop 1).headD []).take 7)
          message := String.mk line
          time := "" }) := by
  refine ⟨pySplitWsAux_length 2 line, ?_, ?_⟩
  · intro hlt
    by_cases hstrip : pyStrip line = []
    · simp only [parseGitLine, hstrip, ite_true, if_pos]
    · simp only [parseGitLine, hstrip, ite_false, if_neg]
      rw [if_neg (by omega : ¬ (pySplitWs2 line).length ≥ 2)]
  · intro h2
    have hne : pySplitWs2 line ≠ [] := by
      intro hh; rw [hh] at h2; simp at h2
    obtain ⟨c, r, hdrop⟩ := pySplitWsAux_ne_nil hne
    have hstrip := pyStrip_ne_nil_of_dropWhile hdrop
    simp only [parseGitLine, hstrip, ite_false, if_neg]
    rw [if_pos (by omega : (pySplitWs2 line).length ≥ 2)]
    rw [if_neg (by omega : ¬ (pySplitWs2 line).length > 2)]
    rw [if_pos (by omega : (pySplitWs2 line).length > 1)]

theorem C2_git_line_segments_witness :
    (pySplitWs2 "x abc".data).length = 2 ∧
    parseGitLine "x abc".data = some
      { hash := String.mk ((((pySplitWs2 "x abc".data).drop 1).headD []).take 7)
        message := String.mk "x abc".data
        time := "" } ∧
    parseGitLine "*".data = none :=
  ⟨by decide, (C2_git_line_segments "x abc".data).2.2 (by decide),
    (C2_git_line_segments "*".data).2.1 (by decide)⟩

/-- C3 (corrected, counterexample): the claim that *every* failure of the
VCS command — including a failure to spawn the process — yields an empty
commit list with a success response is false: a raised spawn error is
caught by the handler's `except`, which sends HTTP 500. -/
theorem C3_spawn_failure_is_500 :
    serve_git_activity (RunResult.raised "No such file or directory") =
      GitResponse.err 500 "No such file or directory" ∧
    serve_git_activity (RunResult.raised "No such file or directory") ≠
      GitResponse.ok [] := by
  exact ⟨rfl, by decide⟩

/-- C3 (amended): a VCS command that runs but exits non-zero (leaving no
captured output) yields an empty commit list with a success response,
while a failure to spawn the process yields an HTTP 500 error response. -/
theorem C3_git_failure_paths :
    (∀ rc : Int, serve_git_activity (RunResult.ok rc "") = GitResponse.ok []) ∧
    (∀ msg : String, serve_git_activity (RunResult.raised msg) = GitResponse.err 500 msg) := by
  constructor
  · intro rc
    show GitResponse.ok ((splitOnNL "".data).filterMap parseGitLine) = GitResponse.ok []
    rfl
  · intro msg
    rfl

/-- C5 (code bug): the specification's end-to-end row
`| 2 | Audio Engine | 🟡 In Progress | 45% |` (with the real emoji
U+1F7E1) matches nothing: the shipped file's character class holds a
Mac-Roman mojibake of the emoji, not the emoji themselves, so the parser
emits no record at all and the snapshot has no entry under `"2"`. -/
theorem C5_emoji_row_yields_nothing :
    scanRows c5doc.data = [] ∧
    buildModules offEnv c5doc = [] ∧
    dictLookup (buildModules offEnv c5doc) "2" = none := by
  refine ⟨by decide, by decide, by decide⟩

/-- C7: a line on which the pattern matches nowhere — in particular a row
whose glyph is outside the fixed character class — contributes no record,
raises nothing (the scan is a total function), and removing it leaves the
records of the other lines unchanged. -/
theorem C7_nonmatching_lines_skipped (pre post : List (List Char)) (L : List Char)
    (hL : scanRows L = []) :
    scanRows (joinNL (pre ++ L :: post)) = scanRows (joinNL (pre ++ post)) := by
  rw [scanRows_joinNL, scanRows_joinNL]
  simp [hL]

theorem C7_nonmatching_lines_skipped_witness :
    scanRows (joinNL ["| 1 | A | ü x | 5%".data,
      "| 7 | N | X Bad | 10%".data, "| 2 | B | ü y | 7%".data]) =
    scanRows (joinNL ["| 1 | A | ü x | 5%".data, "| 2 | B | ü y | 7%".data]) :=
  C7_nonmatching_lines_skipped ["| 1 | A | ü x | 5%".data]
    ["| 2 | B | ü y | 7%".data] "| 7 | N | X Bad | 10%".data (by decide)

/-- C9: parsing is deterministic (a pure function of the document text:
equal texts give equal results) and order-preserving: the records of a
document are the concatenation, line by line in document order, of each
line's records. -/
theorem C9_parse_deterministic_document_order :
    (∀ s t : String, s = t → scanRows s.data = scanRows t.data) ∧
    (∀ ls : List (List Char), scanRows (joinNL ls) = (ls.map scanRows).flatten) := by
  exact ⟨fun s t h => by rw [h], scanRows_joinNL⟩

theorem C9_parse_deterministic_document_order_witness :
    scanRows cexDoc.data = scanRows cexDoc.data ∧
    scanRows (joinNL ["| 1 | A | ü x | 5%".data, "junk".data]) =
      (["| 1 | A | ü x | 5%".data, "junk".data].map scanRows).flatten :=
  ⟨C9_parse_deterministic_document_order.1 cexDoc cexDoc rfl,
    C9_parse_deterministic_document_order.2 _⟩

/-- C8: if the status document cannot be read, `/api/status` responds
HTTP 500 carrying the error text, and no (partial or empty) snapshot is
ever returned for that request. -/
theorem C8_unreadable_document_500 (msg : String) (env : ProbeEnv) (now : String) :
    serve_status (ReadResult.raised msg) env now = StatusResponse.err 500 msg ∧
    ∀ mods upd, serve_status (ReadResult.raised msg) env now ≠ StatusResponse.ok mods upd := by
  exact ⟨rfl, fun mods upd h => StatusResponse.noConfusion h⟩

theorem C8_unreadable_document_500_witness :
    serve_status (ReadResult.raised "boom") offEnv "now" = StatusResponse.err 500 "boom" ∧
    ∀ mods upd, serve_status (ReadResult.raised "boom") offEnv "now" ≠ StatusResponse.ok mods upd :=
  C8_unreadable_document_500 "boom" offEnv "now"

/-- C10: when several rows parse with the same id, the snapshot keeps
exactly one entry for that id (its key list has no duplicates), and the
entry's value is the record of the last such row in document order. -/
theorem C10_duplicate_id_last_row_wins (env : ProbeEnv) (content : String) (k : String) :
    ((buildModules env content).map Prod.fst).Nodup ∧
    ∀ m, ((scanRows content.data).filter fun m' => (recordOfMatch env m').1 = k).getLast? = some m →
      dictLookup (buildModules env content) k = some (recordOfMatch env m).2 := by
  refine ⟨buildModules_keys_nodup env content, ?_⟩
  intro m hm
  rw [buildModules_lookup env content k, hm]
  rfl

theorem C10_duplicate_id_last_row_wins_witness :
    ((buildModules offEnv c10doc).map Prod.fst).Nodup ∧
    dictLookup (buildModules offEnv c10doc) "1" =
      some (recordOfMatch offEnv
        { num := ['1'], name := ['B'], glyph := Char.ofNat 0xFC,
          text := ['y'], pct := ['2', '0'] }).2 :=
  ⟨(C10_duplicate_id_last_row_wins offEnv c10doc "1").1,
    (C10_duplicate_id_last_row_wins offEnv c10doc "1").2 _ (by decide)⟩

theorem mem_of_getLast? {α : Type} : ∀ {l : List α} {z : α}, l.getLast? = some z → z ∈ l := by
  intro l
  induction l with
  | nil => intro z h; simp at h
  | cons x xs ih =>
    intro z h
    cases xs with
    | nil =>
      simp only [List.getLast?_singleton, Option.some.injEq] at h
      simp [h]
    | cons y ys =>
      rw [List.getLast?_cons_cons] at h
      exact List.mem_cons_of_mem x (ih h)

/-- C4: for a module id whose sibling directory is missing, or whose
repository queries fail, both probes return their defaults (0 and
`"Never"`), no error propagates, and the snapshot `serve_status` builds
from any document still carries that module's record with those
defaults. -/
theorem C4_probe_failure_defaults (env : ProbeEnv) (id : String)
    (h : env.dirExists (module_dir id) = false ∨
      (queryFailed (env.revList (module_dir id)) ∧ queryFailed (env.lastLog (module_dir id)))) :
    get_module_commits env id = 0 ∧ get_last_activity env id = "Never" ∧
    ∀ (content now : String) (m : RowMatch), m ∈ scanRows content.data →
      (recordOfMatch env m).1 = id →
      ∃ mods r, serve_status (ReadResult.ok content) env now = StatusResponse.ok mods now ∧
        dictLookup mods id = some r ∧ r.commits = 0 ∧ r.lastActive = "Never" := by
  have hc : get_module_commits env id = 0 := by
    unfold get_module_commits
    cases h with
    | inl hfalse => simp [hfalse]
    | inr hq =>
      by_cases hd : env.dirExists (module_dir id)
      · rw [if_pos hd]
        cases hr : env.revList (module_dir id) with
        | ok rc out =>
          have : rc ≠ 0 := by have := hq.1; rw [hr] at this; exact this
          simp [this]
        | raised m => rfl
      · rw [if_neg hd]
  have hl : get_last_activity env id = "Never" := by
    unfold get_last_activity
    cases h with
    | inl hfalse => simp [hfalse]
    | inr hq =>
      by_cases hd : env.dirExists (module_dir id)
      · rw [if_pos hd]
        cases hr : env.lastLog (module_dir id) with
        | ok rc out =>
          have : rc ≠ 0 := by have := hq.2; rw [hr] at this; exact this
          simp [this]
        | raised m => rfl
      · rw [if_neg hd]
  refine ⟨hc, hl, ?_⟩
  intro content now m hm hkey
  obtain ⟨x, xs, hfil⟩ : ∃ x xs,
      (scanRows content.data).filter (fun m' => (recordOfMatch env m').1 = id) = x :: xs := by
    have hmem : m ∈ (scanRows content.data).filter (fun m' => (recordOfMatch env m').1 = id) :=
      List.mem_filter.mpr ⟨hm, by simp [hkey]⟩
    cases hfil : (scanRows content.data).filter (fun m' => (recordOfMatch env m').1 = id) with
    | nil => rw [hfil] at hmem; simp at hmem
    | cons x xs => exact ⟨x, xs, rfl⟩
  obtain ⟨z, hz⟩ := getLast?_some_of_cons x xs
  have hzfil : z ∈ (scanRows content.data).filter (fun m' => (recordOfMatch env m').1 = id) := by
    rw [hfil]; exact mem_of_getLast? hz
  have hzkey : (recordOfMatch env z).1 = id := by
    have := List.of_mem_filter hzfil
    simpa using this
  refine ⟨buildModules env content, (recordOfMatch env z).2, rfl, ?_, ?_, ?_⟩
  · rw [buildModules_lookup env content id, hfil, hz]
    rfl
  · show get_module_commits env (String.mk z.num) = 0
    have hzid : String.mk z.num = id := hzkey
    rw [hzid, hc]
  · show get_last_activity env (String.mk z.num) = "Never"
    have hzid : String.mk z.num = id := hzkey
    rw [hzid, hl]

theorem C4_probe_failure_defaults_witness :
    get_module_commits offEnv "1" = 0 ∧ get_last_activity offEnv "1" = "Never" ∧
    ∀ (content now : String) (m : RowMatch), m ∈ scanRows content.data →
      (recordOfMatch offEnv m).1 = "1" →
      ∃ mods r, serve_status (ReadResult.ok content) offEnv now = StatusResponse.ok mods now ∧
        dictLookup mods "1" = some r ∧ r.commits = 0 ∧ r.lastActive = "Never" :=
  C4_probe_failure_defaults offEnv "1" (Or.inl rfl)

/-- C6: against the spec-modelled VCS history output (one line per
commit, capped at 15), the timeline reader returns min(15, n) entries:
never more than 15, and exactly 3 for a 3-commit history. -/
theorem C6_timeline_bounded_to_15 (commits : List (String × String))
    (hh : ∀ c ∈ commits, c.1.data ≠ [] ∧ ∀ ch ∈ c.1.data, isPyWs ch = false)
    (hs : ∀ c ∈ commits, '\n' ∉ c.2.data) :
    ∃ l, serve_git_activity (RunResult.ok 0 (gitLogStdout commits)) = GitResponse.ok l ∧
      l.length = min 15 commits.length ∧ l.length ≤ 15 := by
  have key : ∀ (cl : List (String × String)),
      (∀ c ∈ cl, c.1.data ≠ [] ∧ ∀ ch ∈ c.1.data, isPyWs ch = false) →
      (∀ c ∈ cl, '\n' ∉ c.2.data) →
      ((splitOnNL (gitLogStdout cl).data).filterMap parseGitLine).length = min 15 cl.length := by
    intro cl hh' hs'
    cases cl with
    | nil => decide
    | cons c0 cs =>
      have hdata : (gitLogStdout (c0 :: cs)).data =
          joinNL (((c0 :: cs).take 15).map gitLogLine) := rfl
      rw [hdata]
      have hlenlines : (((c0 :: cs).take 15).map gitLogLine).length =
          min 15 (c0 :: cs).length := by
        rw [List.length_map, List.length_take]
      have hne : ((c0 :: cs).take 15).map gitLogLine ≠ [] := by
        intro hnil
        rw [hnil] at hlenlines
        simp only [List.length_nil, List.length_cons] at hlenlines
        omega
      have hnl : ∀ l ∈ ((c0 :: cs).take 15).map gitLogLine, '\n' ∉ l := by
        intro l hl
        obtain ⟨c, hc, rfl⟩ := List.mem_map.mp hl
        have hcm : c ∈ c0 :: cs := List.mem_of_mem_take hc
        intro hmem
        unfold gitLogLine at hmem
        rcases List.mem_cons.mp hmem with h1 | hmem2
        · exact absurd h1 (by decide)
        rcases List.mem_cons.mp hmem2 with h1 | hmem3
        · exact absurd h1 (by decide)
        rcases List.mem_append.mp hmem3 with h1 | hmem4
        · exact absurd ((hh' c hcm).2 '\n' h1) (by decide)
        rcases List.mem_cons.mp hmem4 with h1 | h1
        · exact absurd h1 (by decide)
        · exact hs' c hcm h1
      rw [splitOnNL_joinNL hne hnl]
      rw [filterMap_length_of_all_some parseGitLine _ ?_]
      · exact hlenlines
      · intro line hline
        obtain ⟨c, hc, rfl⟩ := List.mem_map.mp hline
        have hcm : c ∈ c0 :: cs := List.mem_of_mem_take hc
        exact parseGitLine_commit_line c.1.data c.2.data (hh' c hcm).1 (hh' c hcm).2
  refine ⟨_, rfl, key commits hh hs, ?_⟩
  rw [key commits hh hs]
  exact Nat.min_le_left _ _

theorem C6_timeline_bounded_to_15_witness :
    ∃ l, serve_git_activity (RunResult.ok 0
        (gitLogStdout [("a1b2c3d", "first"), ("e4f5a6b", "second"), ("c7d8e9f", "third")])) =
      GitResponse.ok l ∧ l.length = min 15 3 ∧ l.length ≤ 15 :=
  C6_timeline_bounded_to_15 [("a1b2c3d", "first"), ("e4f5a6b", "second"), ("c7d8e9f", "third")]
    (by decide) (by decide)
